import Mathlib

/-!
Verification of the density estimation tree (DET) core of this repository
(`src/mlpack/methods/det/dt_utils.hpp` and the companion implementation it
includes).  The repository snapshot contains only the declarations in
`dt_utils.hpp`; the bodies (`dt_utils_impl.hpp`, `dtree.hpp`) are not present,
so every behavioural definition below is modelled from the specification, as
its doc comment records.  Numeric values are embedded as rationals.
-/

attribute [local semireducible] Rat.mul Rat.add Rat.sub Rat.inv

/-- A data point: one rational coordinate per dimension. -/
abbrev Point := List ℚ

/-- Coordinate of a point in dimension `d` (0 outside the stored dimensions). -/
def coordAt (x : Point) (d : Nat) : ℚ := x.getD d 0

/-- Minimum of a list of rationals, 0 for the empty list. -/
def listMinD : List ℚ → ℚ
  | [] => 0
  | x :: xs => xs.foldl min x

/-- Maximum of a list of rationals, 0 for the empty list. -/
def listMaxD : List ℚ → ℚ
  | [] => 0
  | x :: xs => xs.foldl max x

/-- Modelled from the spec: the recursive binary partition structure
(`DTree` in `dtree.hpp`, which is missing from the snapshot).  Each node
carries its bounding hyper-rectangle (`mins`/`maxs` per dimension), the
sample count it contains, an integer tag used for leaf identification and
path caching, and the scalar error value used for splitting and pruning.
Internal nodes additionally carry the split dimension and split value and
own exactly two children. -/
inductive DTree where
  | leaf (mins maxs : List ℚ) (count : Nat) (tag : Int) (err : ℚ)
  | node (mins maxs : List ℚ) (count : Nat) (tag : Int) (err : ℚ)
      (splitDim : Nat) (splitVal : ℚ) (l r : DTree)
deriving Repr, DecidableEq

/-- Lower bounds of a tree root's bounding rectangle. -/
def tmins : DTree → List ℚ
  | .leaf m _ _ _ _ => m
  | .node m _ _ _ _ _ _ _ _ => m

/-- Upper bounds of a tree root's bounding rectangle. -/
def tmaxs : DTree → List ℚ
  | .leaf _ m _ _ _ => m
  | .node _ m _ _ _ _ _ _ _ => m

/-- Sample count stored at a tree's root. -/
def tcount : DTree → Nat
  | .leaf _ _ c _ _ => c
  | .node _ _ c _ _ _ _ _ _ => c

/-- Tag stored at a tree's root. -/
def ttag : DTree → Int
  | .leaf _ _ _ t _ => t
  | .node _ _ _ t _ _ _ _ _ => t

/-- Error value stored at a tree's root. -/
def terr : DTree → ℚ
  | .leaf _ _ _ _ e => e
  | .node _ _ _ _ e _ _ _ _ => e

/-- Whether a tree is a single (leaf) node. -/
def isLeaf : DTree → Bool
  | .leaf _ _ _ _ _ => true
  | .node _ _ _ _ _ _ _ _ _ => false

/-- Split dimension of a tree's root (0 for a leaf). -/
def splitDimOf : DTree → Nat
  | .leaf _ _ _ _ _ => 0
  | .node _ _ _ _ _ d _ _ _ => d

/-- Split value of a tree's root (0 for a leaf). -/
def splitValOf : DTree → ℚ
  | .leaf _ _ _ _ _ => 0
  | .node _ _ _ _ _ _ v _ _ => v

/-- Left child of a tree's root (the tree itself for a leaf). -/
def leftOf : DTree → DTree
  | .leaf m mx c t e => .leaf m mx c t e
  | .node _ _ _ _ _ _ _ l _ => l

/-- Right child of a tree's root (the tree itself for a leaf). -/
def rightOf : DTree → DTree
  | .leaf m mx c t e => .leaf m mx c t e
  | .node _ _ _ _ _ _ _ _ r => r

/-- Number of leaves of a tree. -/
def numLeaves : DTree → Nat
  | .leaf _ _ _ _ _ => 1
  | .node _ _ _ _ _ _ _ l r => numLeaves l + numLeaves r

/-- Sum of the error values of a tree's leaves (the subtree-error aggregate
used during pruning). -/
def subErr : DTree → ℚ
  | .leaf _ _ _ _ e => e
  | .node _ _ _ _ _ _ _ l r => subErr l + subErr r

/-- All subtrees of a tree, the tree itself included, in preorder. -/
def subtreesList : DTree → List DTree
  | .leaf m mx c t e => [.leaf m mx c t e]
  | .node m mx c t e d v l r =>
      .node m mx c t e d v l r :: (subtreesList l ++ subtreesList r)

/-- All node tags of a tree, in preorder. -/
def allTags : DTree → List Int
  | .leaf _ _ _ t _ => [t]
  | .node _ _ _ t _ _ _ l r => t :: (allTags l ++ allTags r)

/-- The split points (dimension, value) of all internal nodes, in preorder. -/
def splitPoints : DTree → List (Nat × ℚ)
  | .leaf _ _ _ _ _ => []
  | .node _ _ _ _ _ d v l r => (d, v) :: (splitPoints l ++ splitPoints r)

/-- Lower bound of a tree's bounding rectangle in dimension `d`. -/
def lowD (t : DTree) (d : Nat) : ℚ := (tmins t).getD d 0

/-- Upper bound of a tree's bounding rectangle in dimension `d`. -/
def highD (t : DTree) (d : Nat) : ℚ := (tmaxs t).getD d 0

/-- Volume of the hyper-rectangle with the given per-dimension bounds. -/
def rectVolume (mins maxs : List ℚ) : ℚ :=
  (mins.zip maxs).foldl (fun acc p => acc * (p.2 - p.1)) 1

/-- Modelled from the spec: the node error estimator of `dtree.hpp` (missing
from the snapshot), combining the node's sample count `c`, the total
training-set size `n` and the hyper-volume of its bounding rectangle.  The
exact formula is left open by the spec (section 9); we use the standard DET
squared-error proxy `-(c/n)^2 / volume`, and for the optional volume
regularization the documented choice `-(c*(c-1)/n^2) / volume`, which
penalizes small-count nodes. -/
def nodeError (c n : Nat) (mins maxs : List ℚ) (useVolumeReg : Bool) : ℚ :=
  let vol := rectVolume mins maxs
  if useVolumeReg then -(((c : ℚ) * ((c : ℚ) - 1)) / (((n : ℚ) ^ 2) * vol))
  else -(((c : ℚ) ^ 2) / (((n : ℚ) ^ 2) * vol))

/-- Insert a rational into a sorted list, keeping it sorted. -/
def insertSorted (x : ℚ) : List ℚ → List ℚ
  | [] => [x]
  | y :: ys => if x ≤ y then x :: y :: ys else y :: insertSorted x ys

/-- Insertion sort for rationals. -/
def sortQ (l : List ℚ) : List ℚ := l.foldr insertSorted []

/-- Remove adjacent duplicates from a list of rationals. -/
def dedupAdj : List ℚ → List ℚ
  | [] => []
  | [x] => [x]
  | x :: y :: ys => if x = y then dedupAdj (y :: ys) else x :: dedupAdj (y :: ys)

/-- Modelled from the spec: candidate split points for one dimension are the
midpoints between consecutive sorted unique coordinate values. -/
def splitCandidates (vals : List ℚ) : List ℚ :=
  let s := dedupAdj (sortQ vals)
  (s.zip s.tail).map (fun p => (p.1 + p.2) / 2)

/-- Score of a candidate split: total error of the two hypothetical children.
The children's bounding rectangles are the parent's rectangle with the split
dimension interval cut at the split value. -/
def splitScore (data : List Point) (mins maxs : List ℚ) (n : Nat)
    (useVolumeReg : Bool) (d : Nat) (v : ℚ) : ℚ :=
  let lc := (data.filter (fun x => decide (coordAt x d < v))).length
  let rc := (data.filter (fun x => !(decide (coordAt x d < v)))).length
  nodeError lc n mins (maxs.set d v) useVolumeReg +
    nodeError rc n (mins.set d v) maxs useVolumeReg

/-- Modelled from the spec: all feasible candidate splits `(dim, value,
score)` of a node: both children must contain at least `minLeafSize` points
and the children's total error must strictly improve on the node's error. -/
def feasibleSplits (data : List Point) (mins maxs : List ℚ) (n : Nat)
    (minLeafSize : Nat) (useVolumeReg : Bool) : List (Nat × ℚ × ℚ) :=
  (List.range mins.length).flatMap (fun d =>
    (splitCandidates (data.map (fun x => coordAt x d))).filterMap (fun v =>
      let lc := (data.filter (fun x => decide (coordAt x d < v))).length
      let rc := (data.filter (fun x => !(decide (coordAt x d < v)))).length
      let sc := splitScore data mins maxs n useVolumeReg d v
      if minLeafSize ≤ lc ∧ minLeafSize ≤ rc ∧
          sc < nodeError data.length n mins maxs useVolumeReg
      then some (d, v, sc) else none))

/-- First candidate with minimal score among a list of candidates. -/
def pickBest : List (Nat × ℚ × ℚ) → Option (Nat × ℚ)
  | [] => none
  | c :: cs => some
      (cs.foldl (fun best x => if x.2.2 < best.2.2 then x else best) c
        |> fun b => (b.1, b.2.1))

/-- Modelled from the spec: split evaluation of `dtree.hpp` (missing from the
snapshot).  Evaluates every dimension and every candidate split point and
selects the feasible split minimizing the total children error, or `none`
when no valid split exists. -/
def findBestSplit (data : List Point) (mins maxs : List ℚ) (n : Nat)
    (minLeafSize : Nat) (useVolumeReg : Bool) : Option (Nat × ℚ) :=
  pickBest (feasibleSplits data mins maxs n minLeafSize useVolumeReg)

/-- Modelled from the spec: the recursive tree builder of `dtree.hpp`
(missing from the snapshot), with an explicit structural fuel bounding the
recursion depth (each recursive call operates on strictly fewer points, so
`data.length + 1` fuel always suffices).  A node becomes a leaf when it has
fewer than `2 * minLeafSize` points, when it has at most `maxLeafSize`
points, or when no valid (improving, feasible, rectangle-respecting) split
exists; otherwise the best split is applied and both children are built
recursively, each child receiving the parent's rectangle cut at the split
value in the split dimension. -/
def buildFuel : Nat → List Point → List ℚ → List ℚ → Nat → Bool → Nat → Nat → DTree
  | 0, data, mins, maxs, n, uvr, _, _ =>
      .leaf mins maxs data.length 0 (nodeError data.length n mins maxs uvr)
  | fuel + 1, data, mins, maxs, n, uvr, maxLS, minLS =>
      let c := data.length
      let e := nodeError c n mins maxs uvr
      if c < 2 * minLS ∨ c ≤ maxLS then .leaf mins maxs c 0 e
      else
        match findBestSplit data mins maxs n minLS uvr with
        | none => .leaf mins maxs c 0 e
        | some (d, v) =>
            let ldata := data.filter (fun x => decide (coordAt x d < v))
            let rdata := data.filter (fun x => !(decide (coordAt x d < v)))
            let lt := buildFuel fuel ldata mins (maxs.set d v) n uvr maxLS minLS
            let rt := buildFuel fuel rdata (mins.set d v) maxs n uvr maxLS minLS
            if d < mins.length ∧ mins.length = maxs.length ∧
                mins.getD d 0 ≤ v ∧ v ≤ maxs.getD d 0 ∧
                terr lt + terr rt < e ∧ ldata.length < c ∧ rdata.length < c
            then .node mins maxs c 0 e d v lt rt
            else .leaf mins maxs c 0 e

/-- Per-dimension lower bounds of a dataset's bounding rectangle. -/
def bboxMins (data : List Point) : List ℚ :=
  (List.range (data.headD []).length).map
    (fun d => listMinD (data.map (fun x => coordAt x d)))

/-- Per-dimension upper bounds of a dataset's bounding rectangle. -/
def bboxMaxs (data : List Point) : List ℚ :=
  (List.range (data.headD []).length).map
    (fun d => listMaxD (data.map (fun x => coordAt x d)))

/-- Modelled from the spec: `Build(dataset, maxLeafSize, minLeafSize,
useVolumeReg) -> root`, the maximal-tree builder (its body lives in the
missing implementation file).  The root rectangle is the dataset's bounding
rectangle. -/
def BuildTop (data : List Point) (useVolumeReg : Bool)
    (maxLeafSize minLeafSize : Nat) : DTree :=
  buildFuel (data.length + 1) data (bboxMins data) (bboxMaxs data)
    data.length useVolumeReg maxLeafSize minLeafSize

lemma numLeaves_pos (t : DTree) : 1 ≤ numLeaves t := by
  induction t with
  | leaf m mx c tg e => simp [numLeaves]
  | node m mx c tg e d v l r ihl ihr => simp [numLeaves]; omega

lemma getD_set_self_q (l : List ℚ) (i : Nat) (v : ℚ) (h : i < l.length) :
    (l.set i v).getD i 0 = v := by
  induction l generalizing i with
  | nil => simp at h
  | cons a as ih =>
    cases i with
    | zero => rfl
    | succ j => simpa using ih j (by simpa using h)

lemma tmins_buildFuel (fuel : Nat) (data : List Point) (mins maxs : List ℚ)
    (n : Nat) (uvr : Bool) (a b : Nat) :
    tmins (buildFuel fuel data mins maxs n uvr a b) = mins := by
  cases fuel with
  | zero => rfl
  | succ f =>
    simp only [buildFuel]
    split
    · rfl
    · split
      · rfl
      · split
        · rfl
        · rfl

lemma tmaxs_buildFuel (fuel : Nat) (data : List Point) (mins maxs : List ℚ)
    (n : Nat) (uvr : Bool) (a b : Nat) :
    tmaxs (buildFuel fuel data mins maxs n uvr a b) = maxs := by
  cases fuel with
  | zero => rfl
  | succ f =>
    simp only [buildFuel]
    split
    · rfl
    · split
      · rfl
      · split
        · rfl
        · rfl

/-- The rectangle bookkeeping invariant guaranteed by the builder: at every
internal node the split value lies inside the node's rectangle in the split
dimension, and the two children's rectangles are the parent's rectangle with
the split-dimension interval cut at the split value. -/
def SplitBoxed : DTree → Prop
  | .leaf _ _ _ _ _ => True
  | .node mins maxs _ _ _ d v l r =>
      d < mins.length ∧ mins.length = maxs.length ∧
      mins.getD d 0 ≤ v ∧ v ≤ maxs.getD d 0 ∧
      tmins l = mins ∧ tmaxs l = maxs.set d v ∧
      tmins r = mins.set d v ∧ tmaxs r = maxs ∧
      SplitBoxed l ∧ SplitBoxed r

lemma splitBoxed_buildFuel (fuel : Nat) : ∀ (data : List Point)
    (mins maxs : List ℚ) (n : Nat) (uvr : Bool) (a b : Nat),
    SplitBoxed (buildFuel fuel data mins maxs n uvr a b) := by
  induction fuel with
  | zero => intro data mins maxs n uvr a b; trivial
  | succ f ih =>
    intro data mins maxs n uvr a b
    simp only [buildFuel]
    split
    · trivial
    · split
      · trivial
      · split
        · rename_i hguard
          exact ⟨hguard.1, hguard.2.1, hguard.2.2.1, hguard.2.2.2.1,
            tmins_buildFuel _ _ _ _ _ _ _ _, tmaxs_buildFuel _ _ _ _ _ _ _ _,
            tmins_buildFuel _ _ _ _ _ _ _ _, tmaxs_buildFuel _ _ _ _ _ _ _ _,
            ih _ _ _ _ _ _ _, ih _ _ _ _ _ _ _⟩
        · trivial

lemma splitBoxed_of_mem_subtrees : ∀ (t s : DTree),
    SplitBoxed t → s ∈ subtreesList t → SplitBoxed s := by
  intro t
  induction t with
  | leaf m mx c tg e =>
    intro s h hs
    simp [subtreesList] at hs
    subst hs; trivial
  | node m mx c tg e d v l r ihl ihr =>
    intro s h hs
    obtain ⟨_, _, _, _, _, _, _, _, hl, hr⟩ := h
    simp [subtreesList] at hs
    rcases hs with hs | hs | hs
    · subst hs
      exact ⟨by assumption, by assumption, by assumption, by assumption,
        by assumption, by assumption, by assumption, by assumption, hl, hr⟩
    · exact ihl s hl hs
    · exact ihr s hr hs

/-- Claim C3: in every trained tree, the bounding rectangles of an internal
node's two children, restricted to the split dimension, exactly partition the
parent's rectangle in that dimension: their (half-open) intervals are
disjoint and their union is the parent's interval. -/
theorem det_children_partition_parent (data : List Point) (uvr : Bool)
    (maxLS minLS : Nat) (s : DTree)
    (hs : s ∈ subtreesList (BuildTop data uvr maxLS minLS))
    (hint : isLeaf s = false) :
    Set.Ico (lowD (leftOf s) (splitDimOf s)) (highD (leftOf s) (splitDimOf s)) ∪
        Set.Ico (lowD (rightOf s) (splitDimOf s)) (highD (rightOf s) (splitDimOf s)) =
      Set.Ico (lowD s (splitDimOf s)) (highD s (splitDimOf s)) ∧
    Disjoint
      (Set.Ico (lowD (leftOf s) (splitDimOf s)) (highD (leftOf s) (splitDimOf s)))
      (Set.Ico (lowD (rightOf s) (splitDimOf s)) (highD (rightOf s) (splitDimOf s))) := by
  have hb : SplitBoxed s :=
    splitBoxed_of_mem_subtrees _ _ (splitBoxed_buildFuel _ _ _ _ _ _ _ _) hs
  cases s with
  | leaf m mx c tg e => simp [isLeaf] at hint
  | node mins maxs c tg e d v l r =>
    obtain ⟨h1, h2, h3, h4, h5, h6, h7, h8, _, _⟩ := hb
    have hdm : d < maxs.length := h2 ▸ h1
    simp only [leftOf, rightOf, lowD, highD, splitDimOf]
    rw [h5, h6, h7, h8]
    simp only [tmins, tmaxs]
    rw [getD_set_self_q maxs d v hdm, getD_set_self_q mins d v h1]
    exact ⟨Set.Ico_union_Ico_eq_Ico h3 h4, Set.Ico_disjoint_Ico_same⟩

/-- Concrete instantiation of claim C3's theorem: the root of the tree built
on the one-dimensional dataset `{0, 1, 2, 3}` is internal, and its children's
split-dimension intervals partition the root interval. -/
theorem det_children_partition_parent_witness :
    isLeaf (BuildTop [[0], [1], [2], [3]] false 2 1) = false ∧
    (Set.Ico (lowD (leftOf (BuildTop [[0], [1], [2], [3]] false 2 1))
          (splitDimOf (BuildTop [[0], [1], [2], [3]] false 2 1)))
        (highD (leftOf (BuildTop [[0], [1], [2], [3]] false 2 1))
          (splitDimOf (BuildTop [[0], [1], [2], [3]] false 2 1))) ∪
        Set.Ico (lowD (rightOf (BuildTop [[0], [1], [2], [3]] false 2 1))
          (splitDimOf (BuildTop [[0], [1], [2], [3]] false 2 1)))
        (highD (rightOf (BuildTop [[0], [1], [2], [3]] false 2 1))
          (splitDimOf (BuildTop [[0], [1], [2], [3]] false 2 1))) =
      Set.Ico (lowD (BuildTop [[0], [1], [2], [3]] false 2 1)
          (splitDimOf (BuildTop [[0], [1], [2], [3]] false 2 1)))
        (highD (BuildTop [[0], [1], [2], [3]] false 2 1)
          (splitDimOf (BuildTop [[0], [1], [2], [3]] false 2 1)))) ∧
    Disjoint
      (Set.Ico (lowD (leftOf (BuildTop [[0], [1], [2], [3]] false 2 1))
          (splitDimOf (BuildTop [[0], [1], [2], [3]] false 2 1)))
        (highD (leftOf (BuildTop [[0], [1], [2], [3]] false 2 1))
          (splitDimOf (BuildTop [[0], [1], [2], [3]] false 2 1))))
      (Set.Ico (lowD (rightOf (BuildTop [[0], [1], [2], [3]] false 2 1))
          (splitDimOf (BuildTop [[0], [1], [2], [3]] false 2 1)))
        (highD (rightOf (BuildTop [[0], [1], [2], [3]] false 2 1))
          (splitDimOf (BuildTop [[0], [1], [2], [3]] false 2 1)))) := by
  have h := det_children_partition_parent [[0], [1], [2], [3]] false 2 1
    (BuildTop [[0], [1], [2], [3]] false 2 1) (by decide) (by decide)
  exact ⟨by decide, h.1, h.2⟩

/-- Claim C7: a dataset with fewer than `2 * minLeafSize` points yields a
single-leaf tree immediately, with no split attempted. -/
theorem build_small_dataset_single_leaf (data : List Point) (uvr : Bool)
    (maxLS minLS : Nat) (h : data.length < 2 * minLS) :
    isLeaf (BuildTop data uvr maxLS minLS) = true := by
  unfold BuildTop
  simp only [buildFuel]
  rw [if_pos (Or.inl h)]
  rfl

/-- Concrete instantiation of claim C7's theorem: two points with
`minLeafSize = 2` give a single leaf. -/
theorem build_small_dataset_single_leaf_witness :
    isLeaf (BuildTop [[5], [6]] false 10 2) = true :=
  build_small_dataset_single_leaf [[5], [6]] false 10 2 (by decide)

/-- Cost-complexity value of a node: error reduction of its subtree per
additional leaf, the "per-leaf complexity cost" driving weakest-link
pruning. -/
def gValue (t : DTree) : ℚ := (terr t - subErr t) / ((numLeaves t : ℚ) - 1)

/-- Collapse a tree to a single leaf keeping its root data (pruning a
subtree reclassifies the node as a leaf). -/
def collapseNode (t : DTree) : DTree :=
  .leaf (tmins t) (tmaxs t) (tcount t) (ttag t) (terr t)

/-- Modelled from the spec: one weakest-link pruning pass at penalty `α`:
bottom-up, every node whose (updated) per-leaf complexity cost is at most
`α` is collapsed into a leaf. -/
def pruneMin (α : ℚ) : DTree → DTree
  | .leaf m mx c tg e => .leaf m mx c tg e
  | .node m mx c tg e d v l r =>
      let l2 := pruneMin α l
      let r2 := pruneMin α r
      if gValue (.node m mx c tg e d v l2 r2) ≤ α
      then collapseNode (.node m mx c tg e d v l2 r2)
      else .node m mx c tg e d v l2 r2

/-- The per-leaf complexity costs of all internal nodes of a tree. -/
def internalGs : DTree → List ℚ
  | .leaf _ _ _ _ _ => []
  | .node m mx c tg e d v l r =>
      gValue (.node m mx c tg e d v l r) :: (internalGs l ++ internalGs r)

/-- The minimal per-leaf complexity cost over a tree's internal nodes: the
next weakest-link penalty. -/
def gTree (t : DTree) : ℚ := listMinD (internalGs t)

/-- Modelled from the spec: the α-sequence of weakest-link pruning, with
explicit structural fuel (the leaf count strictly decreases at every step,
so `numLeaves t` fuel always suffices): starting from penalty `a` and tree
`t`, repeatedly record `(α, tree)`, compute the minimal per-leaf cost and
collapse all weakest links, until the single-leaf tree remains. -/
def alphaSeqF : Nat → ℚ → DTree → List (ℚ × DTree)
  | 0, a, t => [(a, t)]
  | fuel + 1, a, t =>
      if numLeaves t ≤ 1 then [(a, t)]
      else (a, t) :: alphaSeqF fuel (gTree t) (pruneMin (gTree t) t)

/-- Modelled from the spec: the α-sequence of a tree, starting at penalty 0
with the unpruned tree. -/
def alphaSeq (t : DTree) : List (ℚ × DTree) := alphaSeqF (numLeaves t) 0 t

lemma foldl_min_le_init (xs : List ℚ) (a : ℚ) : xs.foldl min a ≤ a := by
  induction xs generalizing a with
  | nil => exact le_refl a
  | cons x xs ih => exact le_trans (ih (min a x)) (min_le_left a x)

lemma foldl_min_le_mem (xs : List ℚ) : ∀ (a x : ℚ), x ∈ xs → xs.foldl min a ≤ x := by
  induction xs with
  | nil => intro a x hx; simp at hx
  | cons y ys ih =>
    intro a x hx
    rcases List.mem_cons.1 hx with rfl | hx2
    · exact le_trans (foldl_min_le_init ys (min a x)) (min_le_right a x)
    · exact ih (min a y) x hx2

lemma foldl_min_mem (xs : List ℚ) (a : ℚ) :
    xs.foldl min a = a ∨ xs.foldl min a ∈ xs := by
  induction xs generalizing a with
  | nil => exact Or.inl rfl
  | cons x xs ih =>
    rcases ih (min a x) with h | h
    · rcases min_cases a x with ⟨he, _⟩ | ⟨he, _⟩
      · exact Or.inl (by rw [List.foldl_cons, h, he])
      · exact Or.inr (by rw [List.foldl_cons, h, he]; exact List.mem_cons_self x xs)
    · exact Or.inr (List.mem_cons_of_mem x h)

lemma listMinD_le (l : List ℚ) (x : ℚ) (hx : x ∈ l) : listMinD l ≤ x := by
  cases l with
  | nil => simp at hx
  | cons y ys =>
    rcases List.mem_cons.1 hx with rfl | hx2
    · exact foldl_min_le_init ys x
    · exact foldl_min_le_mem ys y x hx2

lemma listMinD_mem (l : List ℚ) (h : l ≠ []) : listMinD l ∈ l := by
  cases l with
  | nil => exact absurd rfl h
  | cons y ys =>
    simp only [listMinD]
    rcases foldl_min_mem ys y with he | he
    · rw [he]; exact List.mem_cons_self y ys
    · exact List.mem_cons_of_mem y he

lemma numLeaves_pruneMin_le (α : ℚ) (t : DTree) :
    numLeaves (pruneMin α t) ≤ numLeaves t := by
  induction t with
  | leaf m mx c tg e => exact le_refl _
  | node m mx c tg e d v l r ihl ihr =>
    simp only [pruneMin]
    split
    · have := numLeaves_pos l
      have := numLeaves_pos r
      simp only [collapseNode, numLeaves]
      omega
    · simp only [numLeaves]; omega

lemma numLeaves_lt_of_pruneMin_ne (α : ℚ) (t : DTree)
    (h : pruneMin α t ≠ t) : numLeaves (pruneMin α t) < numLeaves t := by
  induction t with
  | leaf m mx c tg e => exact absurd rfl h
  | node m mx c tg e d v l r ihl ihr =>
    have := numLeaves_pos l
    have := numLeaves_pos r
    have hl := numLeaves_pruneMin_le α l
    have hr := numLeaves_pruneMin_le α r
    simp only [pruneMin] at h ⊢
    split
    · simp only [collapseNode, numLeaves]; omega
    · rename_i hno
      rw [if_neg hno] at h
      have hchild : pruneMin α l ≠ l ∨ pruneMin α r ≠ r := by
        by_contra hc
        push_neg at hc
        exact h (by rw [hc.1, hc.2])
      rcases hchild with hc | hc
      · have := ihl hc; simp only [numLeaves]; omega
      · have := ihr hc; simp only [numLeaves]; omega

lemma numLeaves_lt_of_exists_g_le (t : DTree) (α : ℚ)
    (h : ∃ x ∈ internalGs t, x ≤ α) :
    numLeaves (pruneMin α t) < numLeaves t := by
  induction t with
  | leaf m mx c tg e => simp [internalGs] at h
  | node m mx c tg e d v l r ihl ihr =>
    have := numLeaves_pos l
    have := numLeaves_pos r
    have hml := numLeaves_pruneMin_le α l
    have hmr := numLeaves_pruneMin_le α r
    simp only [pruneMin]
    split
    · simp only [collapseNode, numLeaves]; omega
    · rename_i hno
      obtain ⟨x, hx, hxle⟩ := h
      simp only [internalGs, List.mem_cons, List.mem_append] at hx
      rcases hx with rfl | hx | hx
      · have hchild : pruneMin α l ≠ l ∨ pruneMin α r ≠ r := by
          by_contra hc
          push_neg at hc
          rw [hc.1, hc.2] at hno
          exact hno hxle
        rcases hchild with hc | hc
        · have := numLeaves_lt_of_pruneMin_ne α l hc
          simp only [numLeaves]; omega
        · have := numLeaves_lt_of_pruneMin_ne α r hc
          simp only [numLeaves]; omega
      · have := ihl ⟨x, hx, hxle⟩
        simp only [numLeaves]; omega
      · have := ihr ⟨x, hx, hxle⟩
        simp only [numLeaves]; omega

lemma internalGs_pruneMin_gt (α : ℚ) (t : DTree) :
    ∀ x ∈ internalGs (pruneMin α t), α < x := by
  induction t with
  | leaf m mx c tg e => intro x hx; simp [pruneMin, internalGs] at hx
  | node m mx c tg e d v l r ihl ihr =>
    intro x hx
    simp only [pruneMin] at hx
    split at hx
    · simp [collapseNode, internalGs] at hx
    · rename_i hno
      simp only [internalGs, List.mem_cons, List.mem_append] at hx
      rcases hx with rfl | hx | hx
      · exact lt_of_not_le hno
      · exact ihl x hx
      · exact ihr x hx

lemma internalGs_ne_nil (t : DTree) (h : 2 ≤ numLeaves t) : internalGs t ≠ [] := by
  cases t with
  | leaf m mx c tg e => simp [numLeaves] at h
  | node m mx c tg e d v l r => simp [internalGs]

lemma alphaSeqF_head (fuel : Nat) (a : ℚ) (t : DTree) :
    ∃ rest, alphaSeqF fuel a t = (a, t) :: rest := by
  cases fuel with
  | zero => exact ⟨[], rfl⟩
  | succ f =>
    simp only [alphaSeqF]
    split
    · exact ⟨[], rfl⟩
    · exact ⟨_, rfl⟩

lemma alphaSeqF_props (fuel : Nat) : ∀ (a : ℚ) (t : DTree),
    numLeaves t ≤ fuel → (∀ x ∈ internalGs t, a < x) →
    List.Chain' (fun p q => p < q) ((alphaSeqF fuel a t).map Prod.fst) ∧
    List.Chain' (fun p q => q ≤ p)
      ((alphaSeqF fuel a t).map (fun p => numLeaves p.2)) ∧
    ((alphaSeqF fuel a t).getLast?).map (fun p => numLeaves p.2) = some 1 := by
  induction fuel with
  | zero =>
    intro a t hf hg
    have := numLeaves_pos t
    omega
  | succ f ih =>
    intro a t hf hg
    simp only [alphaSeqF]
    split
    · rename_i hle
      have h1 : numLeaves t = 1 := le_antisymm hle (numLeaves_pos t)
      refine ⟨List.chain'_singleton _, List.chain'_singleton _, ?_⟩
      simp [h1]
    · rename_i hgt
      have h2 : 2 ≤ numLeaves t := by omega
      have hne : internalGs t ≠ [] := internalGs_ne_nil t h2
      have hmem : gTree t ∈ internalGs t := listMinD_mem _ hne
      have halt : a < gTree t := hg _ hmem
      have hlt : numLeaves (pruneMin (gTree t) t) < numLeaves t :=
        numLeaves_lt_of_exists_g_le t (gTree t) ⟨_, hmem, le_refl _⟩
      have hf2 : numLeaves (pruneMin (gTree t) t) ≤ f := by omega
      have hg2 : ∀ x ∈ internalGs (pruneMin (gTree t) t), gTree t < x :=
        fun x hx => internalGs_pruneMin_gt (gTree t) t x hx
      obtain ⟨c1, c2, c3⟩ := ih (gTree t) (pruneMin (gTree t) t) hf2 hg2
      obtain ⟨rest, hrest⟩ := alphaSeqF_head f (gTree t) (pruneMin (gTree t) t)
      rw [hrest] at c1 c2 c3
      rw [hrest]
      refine ⟨?_, ?_, ?_⟩
      · simp only [List.map_cons]
        exact (List.chain'_cons).2 ⟨halt, by simpa using c1⟩
      · simp only [List.map_cons]
        exact (List.chain'_cons).2 ⟨le_of_lt hlt, by simpa using c2⟩
      · rw [List.getLast?_cons_cons]
        simpa using c3

lemma improving_node_step (mins maxs : List ℚ) (c : Nat) (tg : Int) (e : ℚ)
    (d : Nat) (v : ℚ) (lt rt : DTree)
    (hsl : subErr lt ≤ terr lt) (hsr : subErr rt ≤ terr rt)
    (hgl : ∀ x ∈ internalGs lt, 0 < x) (hgr : ∀ x ∈ internalGs rt, 0 < x)
    (himp : terr lt + terr rt < e) :
    subErr (DTree.node mins maxs c tg e d v lt rt) ≤
      terr (DTree.node mins maxs c tg e d v lt rt) ∧
    ∀ x ∈ internalGs (DTree.node mins maxs c tg e d v lt rt), 0 < x := by
  have hsub : subErr (DTree.node mins maxs c tg e d v lt rt) < e := by
    simp only [subErr]
    linarith
  constructor
  · exact le_of_lt hsub
  · intro x hx
    simp only [internalGs, List.mem_cons, List.mem_append] at hx
    rcases hx with rfl | hx | hx
    · have hnum : 0 < terr (DTree.node mins maxs c tg e d v lt rt) -
          subErr (DTree.node mins maxs c tg e d v lt rt) := by
        simp only [terr]
        linarith
      have h2 : 2 ≤ numLeaves (DTree.node mins maxs c tg e d v lt rt) := by
        have := numLeaves_pos lt
        have := numLeaves_pos rt
        simp only [numLeaves]
        omega
      have hden : (0 : ℚ) <
          ((numLeaves (DTree.node mins maxs c tg e d v lt rt) : ℚ) - 1) := by
        have h3 : (2 : ℚ) ≤
            (numLeaves (DTree.node mins maxs c tg e d v lt rt) : ℚ) := by
          exact_mod_cast h2
        linarith
      exact div_pos hnum hden
    · exact hgl x hx
    · exact hgr x hx

lemma buildFuel_improving (fuel : Nat) : ∀ (data : List Point)
    (mins maxs : List ℚ) (n : Nat) (uvr : Bool) (a b : Nat),
    subErr (buildFuel fuel data mins maxs n uvr a b) ≤
      terr (buildFuel fuel data mins maxs n uvr a b) ∧
    ∀ x ∈ internalGs (buildFuel fuel data mins maxs n uvr a b), 0 < x := by
  induction fuel with
  | zero =>
    intro data mins maxs n uvr a b
    exact ⟨le_refl _, fun x hx => by simp [internalGs] at hx⟩
  | succ f ih =>
    intro data mins maxs n uvr a b
    simp only [buildFuel]
    split
    · exact ⟨le_refl _, fun x hx => by simp [internalGs] at hx⟩
    · split
      · exact ⟨le_refl _, fun x hx => by simp [internalGs] at hx⟩
      · rename_i d v heq
        split
        · rename_i hguard
          obtain ⟨hsl, hgl⟩ := ih (List.filter (fun x => decide (coordAt x d < v)) data)
            mins (maxs.set d v) n uvr a b
          obtain ⟨hsr, hgr⟩ := ih (List.filter (fun x => !decide (coordAt x d < v)) data)
            (mins.set d v) maxs n uvr a b
          exact improving_node_step _ _ _ _ _ _ _ _ _ hsl hsr hgl hgr
            hguard.2.2.2.2.1
        · exact ⟨le_refl _, fun x hx => by simp [internalGs] at hx⟩

/-- Claim C2: along every α-sequence produced by weakest-link pruning of a
trained tree, the α values are strictly increasing, the leaf counts of the
associated pruned trees are non-increasing, and the last element is the
single-leaf (root-only) tree. -/
theorem alpha_sequence_monotone (data : List Point) (uvr : Bool)
    (maxLS minLS : Nat) :
    List.Chain' (fun p q => p < q)
      ((alphaSeq (BuildTop data uvr maxLS minLS)).map Prod.fst) ∧
    List.Chain' (fun p q => q ≤ p)
      ((alphaSeq (BuildTop data uvr maxLS minLS)).map (fun p => numLeaves p.2)) ∧
    ((alphaSeq (BuildTop data uvr maxLS minLS)).getLast?).map
      (fun p => numLeaves p.2) = some 1 := by
  have him := (buildFuel_improving (data.length + 1) data (bboxMins data)
    (bboxMaxs data) data.length uvr maxLS minLS).2
  exact alphaSeqF_props (numLeaves (BuildTop data uvr maxLS minLS)) 0
    (BuildTop data uvr maxLS minLS) (le_refl _) (fun x hx => him x hx)

/-- The leaf of a tree whose region contains a point (descend left when the
point's split-dimension coordinate is below the split value). -/
def leafAt : DTree → Point → DTree
  | .leaf m mx c tg e, _ => .leaf m mx c tg e
  | .node _ _ _ _ _ d v l r, x =>
      if coordAt x d < v then leafAt l x else leafAt r x

/-- Modelled from the spec: the piecewise-constant density estimate of a
point under a trained tree with training-set size `n`: the containing leaf's
count over `n` times the leaf volume. -/
def densityAt (n : Nat) (t : DTree) (x : Point) : ℚ :=
  let lf := leafAt t x
  (tcount lf : ℚ) / ((n : ℚ) * rectVolume (tmins lf) (tmaxs lf))

/-- Modelled from the spec: held-out error of a pruned tree against a fold:
the negated sum of the estimated densities of the fold's points (a
rational-valued proxy for the held-out log-likelihood, which is not
expressible over ℚ; the spec leaves the exact held-out score open). -/
def heldOutError (n : Nat) (t : DTree) (fold : List Point) : ℚ :=
  -((fold.map (densityAt n t)).sum)

/-- Points of cross-validation fold `i` (round-robin partition, one of the
two partition schemes the spec allows). -/
def foldPoints (data : List Point) (folds i : Nat) : List Point :=
  (data.enum.filter (fun p => p.1 % folds == i)).map Prod.snd

/-- Points outside cross-validation fold `i`. -/
def foldComplement (data : List Point) (folds i : Nat) : List Point :=
  (data.enum.filter (fun p => !(p.1 % folds == i))).map Prod.snd

/-- The pruning level of a fold's α-sequence whose α is closest to `a`
without exceeding it (the full fold tree when none qualifies). -/
def chooseSubtree (seq : List (ℚ × DTree)) (a : ℚ) (dflt : DTree) : DTree :=
  match (seq.filter (fun p => decide (p.1 ≤ a))).getLast? with
  | some p => p.2
  | none => dflt

/-- Modelled from the spec: per-α cross-validated errors.  For every α of
the main sequence, each nonempty fold contributes the held-out error of the
matching pruning level of the tree built on the fold's complement; empty
folds are skipped (not counted as zero), and the contributions are
averaged. -/
def cvAvgErrors (data : List Point) (folds : Nat) (uvr : Bool)
    (maxLS minLS : Nat) (mainSeq : List (ℚ × DTree)) : List ℚ :=
  mainSeq.map (fun p =>
    let terms := (List.range folds).filterMap (fun i =>
      let fold := foldPoints data folds i
      if fold.isEmpty then none
      else
        let tr := BuildTop (foldComplement data folds i) uvr maxLS minLS
        some (heldOutError data.length (chooseSubtree (alphaSeq tr) p.1 tr) fold))
    terms.sum / (terms.length : ℚ))

/-- Scan for the first index of the minimal value: `bv`/`bi` are the current
best value and index, `ci` the index of the list head. -/
def selectAux : List ℚ → ℚ → Nat → Nat → Nat
  | [], _, bi, _ => bi
  | x :: xs, bv, bi, ci =>
      if x < bv then selectAux xs x ci (ci + 1) else selectAux xs bv bi (ci + 1)

/-- Modelled from the spec: index of the α minimizing the cross-validated
error; ties are broken toward the earlier index, i.e. the larger (less
pruned) tree, since the α-sequence is ordered by decreasing size. -/
def selectIdx : List ℚ → Nat
  | [] => 0
  | e :: rest => selectAux rest e 0 1

/-- Modelled from the spec: the pruning applied in the degenerate
`folds <= 1` case when pruning is not skipped: one weakest-link collapse
pass (the spec fixes only that some pruning is applied; this is the
documented choice). -/
def pruneOnce (t : DTree) : DTree :=
  if numLeaves t ≤ 1 then t else pruneMin (gTree t) t

/-- Configuration errors reported by the trainer. -/
inductive TrainError where
  | invalidConfiguration
deriving Repr, DecidableEq

/-- Modelled from the spec: `Trainer(dataset, folds, useVolumeReg,
maxLeafSize, minLeafSize, unprunedTreeOutput, skipPruning)` of
`dt_utils_impl.hpp` (missing from the snapshot); the parameter list and its
order follow the declaration in `dt_utils.hpp` lines 64–71.  Configuration
errors (empty dataset, `folds` exceeding the dataset size) are reported
before any tree building; `folds <= 1` builds one maximal tree on the full
dataset with no cross-validation; otherwise the full tree's α-sequence is
cross-validated and the best pruning level returned.  `unprunedTreeOutput`
only names a dump file for the unpruned tree — per the spec it is purely
observational and does not affect the result. -/
def Trainer (dataset : List Point) (folds : Nat) (useVolumeReg : Bool)
    (maxLeafSize : Nat) (minLeafSize : Nat) (unprunedTreeOutput : String)
    (skipPruning : Bool) : Except TrainError DTree :=
  let _obs := unprunedTreeOutput
  if dataset.length = 0 then .error .invalidConfiguration
  else if dataset.length < folds then .error .invalidConfiguration
  else
    let tree := BuildTop dataset useVolumeReg maxLeafSize minLeafSize
    if folds ≤ 1 then
      if skipPruning then .ok tree else .ok (pruneOnce tree)
    else
      let seq := alphaSeq tree
      let errs := cvAvgErrors dataset folds useVolumeReg maxLeafSize
        minLeafSize seq
      .ok (seq.getD (selectIdx errs) (0, tree)).2

/-- From the source declaration (dt_utils.hpp lines 64–71): the parameter
names of `Trainer`, in declaration order. -/
def trainerParamNames : List String :=
  ["dataset", "folds", "useVolumeReg", "maxLeafSize", "minLeafSize",
   "unprunedTreeOutput", "skipPruning"]

/-- From the source declaration (dt_utils.hpp lines 65–71): calling
`Trainer` with only a dataset and a fold count, all other arguments left at
their declared defaults (`useVolumeReg = false`, `maxLeafSize = 10`,
`minLeafSize = 5`, `unprunedTreeOutput = ""`, `skipPruning = false`). -/
def trainerWithDefaults (dataset : List Point) (folds : Nat) :
    Except TrainError DTree :=
  Trainer dataset folds false 10 5 "" false

/-- Claim C9: calling Trainer with only a dataset and a fold count equals
calling it with useVolumeReg = false, maxLeafSize = 10, minLeafSize = 5,
empty unprunedTreeOutput and skipPruning = false (the declared defaults),
and the unprunedTreeOutput parameter precedes skipPruning in the parameter
list. -/
theorem trainer_default_arguments :
    (∀ (d : List Point) (folds : Nat),
      trainerWithDefaults d folds = Trainer d folds false 10 5 "" false) ∧
    trainerParamNames.indexOf "unprunedTreeOutput" <
      trainerParamNames.indexOf "skipPruning" :=
  ⟨fun _ _ => rfl, by decide⟩

/-- Claim C1: with `folds <= 1` the trainer builds one maximal tree on the
full dataset and returns it without cross-validation; pruning is applied
exactly when `skipPruning` is false, and with `skipPruning = true` the
returned tree is the Builder's maximal tree itself, hence has identical leaf
count and identical split points. -/
theorem trainer_single_fold_no_cv (d : List Point) (folds : Nat) (uvr : Bool)
    (maxLS minLS : Nat) (uto : String) (hne : d ≠ []) (hf : folds ≤ 1) :
    Trainer d folds uvr maxLS minLS uto true = .ok (BuildTop d uvr maxLS minLS) ∧
    Trainer d folds uvr maxLS minLS uto false =
      .ok (pruneOnce (BuildTop d uvr maxLS minLS)) ∧
    ∀ t, Trainer d folds uvr maxLS minLS uto true = .ok t →
      numLeaves t = numLeaves (BuildTop d uvr maxLS minLS) ∧
      splitPoints t = splitPoints (BuildTop d uvr maxLS minLS) := by
  have h0 : ¬ d.length = 0 := by simpa using hne
  have h1 : ¬ d.length < folds := by
    have hp : 1 ≤ d.length := Nat.pos_of_ne_zero h0
    omega
  have hskip : Trainer d folds uvr maxLS minLS uto true =
      .ok (BuildTop d uvr maxLS minLS) := by
    unfold Trainer
    rw [if_neg h0, if_neg h1]
    simp only [if_pos hf, if_pos trivial]
  refine ⟨hskip, ?_, ?_⟩
  · unfold Trainer
    rw [if_neg h0, if_neg h1]
    simp only [if_pos hf]
    rfl
  · intro t ht
    rw [hskip] at ht
    injection ht with ht2
    rw [ht2]
    exact ⟨rfl, rfl⟩

/-- Concrete instantiation of claim C1's theorem on a one-point dataset with
`folds = 1` and `skipPruning = true`. -/
theorem trainer_single_fold_no_cv_witness :
    Trainer [[0]] 1 false 10 5 "" true = .ok (BuildTop [[0]] false 10 5) :=
  (trainer_single_fold_no_cv [[0]] 1 false 10 5 "" (by decide) (by decide)).1

/-- Claim C4: a fold count strictly greater than the dataset size is an
invalid configuration: the trainer reports the error and returns no tree
(the fold count is never silently clamped). -/
theorem trainer_rejects_excess_folds (d : List Point) (folds : Nat)
    (uvr : Bool) (maxLS minLS : Nat) (uto : String) (sp : Bool)
    (h : d.length < folds) :
    Trainer d folds uvr maxLS minLS uto sp = .error .invalidConfiguration := by
  unfold Trainer
  by_cases h0 : d.length = 0
  · rw [if_pos h0]
  · rw [if_neg h0, if_pos h]

/-- Concrete instantiation of claim C4's theorem: one point, two folds. -/
theorem trainer_rejects_excess_folds_witness :
    Trainer [[0]] 2 false 10 5 "" false = .error .invalidConfiguration :=
  trainer_rejects_excess_folds [[0]] 2 false 10 5 "" false (by decide)

lemma selectAux_of_best (xs : List ℚ) : ∀ (bv : ℚ) (bi ci : Nat),
    (∀ x ∈ xs, bv ≤ x) → selectAux xs bv bi ci = bi := by
  induction xs with
  | nil => intro bv bi ci h; rfl
  | cons x xs ih =>
    intro bv bi ci h
    simp only [selectAux]
    rw [if_neg (not_lt.2 (h x (List.mem_cons_self x xs)))]
    exact ih bv bi (ci + 1) (fun y hy => h y (List.mem_cons_of_mem x hy))

lemma selectAux_first_min (xs : List ℚ) : ∀ (k : Nat) (bv : ℚ) (bi ci : Nat),
    k < xs.length → xs.getD k 0 < bv → (∀ x ∈ xs, xs.getD k 0 ≤ x) →
    (∀ j, j < k → xs.getD k 0 < xs.getD j 0) →
    selectAux xs bv bi ci = ci + k := by
  induction xs with
  | nil => intro k bv bi ci hk; simp at hk
  | cons x xs ih =>
    intro k bv bi ci hk hlt hle hfirst
    cases k with
    | zero =>
      simp only [List.getD_cons_zero] at hlt hle
      simp only [selectAux]
      rw [if_pos hlt]
      rw [selectAux_of_best xs x ci (ci + 1)
        (fun y hy => hle y (List.mem_cons_of_mem x hy))]
      omega
    | succ k2 =>
      have hm : (x :: xs).getD (k2 + 1) 0 = xs.getD k2 0 := rfl
      rw [hm] at hlt hle hfirst
      have hk2 : k2 < xs.length := by simpa using hk
      have hx : xs.getD k2 0 < x := by
        have := hfirst 0 (Nat.succ_pos k2)
        simpa using this
      have hle2 : ∀ y ∈ xs, xs.getD k2 0 ≤ y :=
        fun y hy => hle y (List.mem_cons_of_mem x hy)
      have hfirst2 : ∀ j, j < k2 → xs.getD k2 0 < xs.getD j 0 := by
        intro j hj
        have := hfirst (j + 1) (by omega)
        simpa using this
      simp only [selectAux]
      split
      · rw [ih k2 x ci (ci + 1) hk2 hx hle2 hfirst2]
        omega
      · rw [ih k2 bv bi (ci + 1) hk2 hlt hle2 hfirst2]
        omega

/-- Claim C8: the trainer is deterministic — two runs on identical inputs
(identical dataset, folds, useVolumeReg, maxLeafSize, minLeafSize,
unprunedTreeOutput and skipPruning; the fold partition and selection are
functions of these) return identical trees — and the cross-validated α
selection is uniquely determined: any index holding the minimum average
error whose predecessors are strictly worse is the selected index (ties
prefer the earlier index, i.e. the larger tree). -/
theorem trainer_deterministic (d1 d2 : List Point) (f1 f2 : Nat)
    (v1 v2 : Bool) (a1 a2 b1 b2 : Nat) (u1 u2 : String) (s1 s2 : Bool)
    (errs : List ℚ) (i : Nat)
    (hd : d1 = d2) (hf : f1 = f2) (hv : v1 = v2) (ha : a1 = a2)
    (hb : b1 = b2) (hu : u1 = u2) (hs : s1 = s2)
    (hi : i < errs.length)
    (hmin : ∀ j, j < errs.length → errs.getD i 0 ≤ errs.getD j 0)
    (hfirst : ∀ j, j < i → errs.getD i 0 < errs.getD j 0) :
    Trainer d1 f1 v1 a1 b1 u1 s1 = Trainer d2 f2 v2 a2 b2 u2 s2 ∧
    selectIdx errs = i := by
  subst hd hf hv ha hb hu hs
  refine ⟨rfl, ?_⟩
  cases errs with
  | nil => simp at hi
  | cons e rest =>
    cases i with
    | zero =>
      simp only [selectIdx]
      apply selectAux_of_best rest e 0 1
      intro y hy
      obtain ⟨j, hj, hjy⟩ := List.getElem_of_mem hy
      have := hmin (j + 1) (by simp only [List.length_cons]; omega)
      have hg : (e :: rest).getD (j + 1) 0 = rest.getD j 0 := rfl
      have hg0 : (e :: rest).getD 0 0 = e := rfl
      rw [hg, hg0] at this
      rw [List.getD_eq_getElem rest 0 hj, hjy] at this
      exact this
    | succ i2 =>
      simp only [selectIdx]
      have hm : (e :: rest).getD (i2 + 1) 0 = rest.getD i2 0 := rfl
      have hk2 : i2 < rest.length := by simpa using hi
      have hx : rest.getD i2 0 < e := by
        have := hfirst 0 (Nat.succ_pos i2)
        simpa using this
      have hle2 : ∀ y ∈ rest, rest.getD i2 0 ≤ y := by
        intro y hy
        obtain ⟨j, hj, hjy⟩ := List.getElem_of_mem hy
        have := hmin (j + 1) (by simp only [List.length_cons]; omega)
        rw [hm] at this
        have hg : (e :: rest).getD (j + 1) 0 = rest.getD j 0 := rfl
        rw [hg] at this
        rw [List.getD_eq_getElem rest 0 hj] at this
        rw [hjy] at this
        exact this
      have hfirst2 : ∀ j, j < i2 → rest.getD i2 0 < rest.getD j 0 := by
        intro j hj
        have := hfirst (j + 1) (by omega)
        simpa using this
      rw [selectAux_first_min rest i2 e 0 1 hk2 hx hle2 hfirst2]
      omega

/-- Concrete instantiation of claim C8's theorem: two identical runs, and
the unique first-minimum index of the error list `[2, 1, 3]` is 1. -/
theorem trainer_deterministic_witness :
    Trainer [[0]] 1 false 10 5 "" false = Trainer [[0]] 1 false 10 5 "" false ∧
    selectIdx [2, 1, 3] = 1 :=
  trainer_deterministic [[0]] [[0]] 1 1 false false 10 10 5 5 "" "" false false
    [2, 1, 3] 1 rfl rfl rfl rfl rfl rfl rfl (by decide) (by decide) (by decide)

/-- Modelled from the spec: the recursive traversal of
`PrintVariableImportance`, which walks the tree (through a pointer to const)
and aggregates, per dimension, the error reduction `parent error - sum of
children errors` of every internal node split on that dimension.  The
traversal is modelled with explicit state passing: it returns the tree it
walked together with the importance accumulator. -/
def printVIWalk : DTree → DTree × (Nat → ℚ)
  | .leaf m mx c tg e => (.leaf m mx c tg e, fun _ => 0)
  | .node m mx c tg e d v l r =>
      let pl := printVIWalk l
      let pr := printVIWalk r
      (.node m mx c tg e d v pl.1 pr.1,
       fun i => (if i = d then e - (terr pl.1 + terr pr.1) else 0) +
         pl.2 i + pr.2 i)

/-- Modelled from the spec: `PrintVariableImportance(dtree, viFile)`
(declared in dt_utils.hpp lines 48–50 with a pointer-to-const tree): returns
the tree state after the walk together with the emitted importance vector,
one entry per dimension. -/
def PrintVariableImportance (t : DTree) : DTree × List ℚ :=
  let w := printVIWalk t
  (w.1, (List.range (tmins t).length).map w.2)

/-- Modelled from the spec: the normalized importance vector that is
ultimately emitted (normalization by the total importance; the zero vector
is left unchanged). -/
def variableImportanceReport (t : DTree) : List ℚ :=
  let vi := (PrintVariableImportance t).2
  let s := vi.sum
  if s = 0 then vi else vi.map (fun x => x / s)

lemma printVIWalk_fst (t : DTree) : (printVIWalk t).1 = t := by
  induction t with
  | leaf m mx c tg e => rfl
  | node m mx c tg e d v l r ihl ihr =>
    simp only [printVIWalk]
    rw [ihl, ihr]

/-- Claim C10: PrintVariableImportance never modifies the tree it reports
on: the tree coming out of the walk is the tree that went in, so every
node's bounding box, split dimension and value, tag and error value are
unchanged (the C++ declaration takes the tree through a pointer to const). -/
theorem print_variable_importance_preserves_tree (t : DTree) :
    (PrintVariableImportance t).1 = t := printVIWalk_fst t

/-- Index (in left-to-right leaf order) of the leaf a point is assigned to:
the leaf-membership classification of one point. -/
def classifyIdx : DTree → Point → Nat
  | .leaf _ _ _ _ _, _ => 0
  | .node _ _ _ _ _ d v l r, x =>
      if coordAt x d < v then classifyIdx l x else numLeaves l + classifyIdx r x

/-- Errors reported by leaf-membership reporting. -/
inductive MembershipError where
  | outOfRangeLabel
deriving Repr, DecidableEq

/-- Modelled from the spec: the per-leaf class histograms tabulated by
`PrintLeafMembership`: one row per leaf (in leaf order, zero rows for leaves
with no assigned points), one column per class, counting the points assigned
to that leaf carrying that label. -/
def leafHistograms (t : DTree) (data : List Point) (labels : List Nat)
    (numClasses : Nat) : List (List Nat) :=
  (List.range (numLeaves t)).map (fun i =>
    (List.range numClasses).map (fun cl =>
      (data.zip labels).countP (fun pl =>
        decide (classifyIdx t pl.1 = i) && decide (pl.2 = cl))))

/-- Modelled from the spec: `PrintLeafMembership(dtree, data, labels,
numClasses, leafClassMembershipFile)` (declared in dt_utils.hpp lines
33–38; the body is missing from the snapshot): a label outside
`[0, numClasses)` is an error condition, not silently truncated; otherwise
the per-leaf histograms are emitted. -/
def PrintLeafMembership (t : DTree) (data : List Point) (labels : List Nat)
    (numClasses : Nat) : Except MembershipError (List (List Nat)) :=
  if labels.any (fun lb => decide (numClasses ≤ lb)) then .error .outOfRangeLabel
  else .ok (leafHistograms t data labels numClasses)

lemma classifyIdx_lt (t : DTree) (x : Point) : classifyIdx t x < numLeaves t := by
  induction t with
  | leaf m mx c tg e => simp [classifyIdx, numLeaves]
  | node m mx c tg e d v l r ihl ihr =>
    simp only [classifyIdx, numLeaves]
    split
    · omega
    · omega

lemma sum_map_add_nat (L : List α) (f g : α → Nat) :
    (L.map (fun i => f i + g i)).sum = (L.map f).sum + (L.map g).sum := by
  induction L with
  | nil => rfl
  | cons x xs ih => simp only [List.map_cons, List.sum_cons, ih]; omega

lemma sum_indicator_of_lt (n k : Nat) (h : k < n) :
    ((List.range n).map (fun i => if k = i then 1 else 0)).sum = 1 := by
  induction n with
  | zero => omega
  | succ m ih =>
    rw [List.range_succ, List.map_append, List.sum_append]
    by_cases hk : k < m
    · rw [ih hk]
      have : ¬ (k = m) := by omega
      simp [this]
    · have hk2 : k = m := by omega
      have hz : ((List.range m).map (fun i => if k = i then 1 else 0)).sum = 0 := by
        apply List.sum_eq_zero
        intro y hy
        obtain ⟨j, hj, rfl⟩ := List.mem_map.1 hy
        have : j < m := List.mem_range.1 hj
        have : ¬ (k = j) := by omega
        simp [this]
      rw [hz]
      simp [hk2]

lemma sum_countP_buckets (l : List β) (f : β → Nat) (n : Nat)
    (h : ∀ x ∈ l, f x < n) :
    ((List.range n).map (fun i => l.countP (fun x => decide (f x = i)))).sum =
      l.length := by
  induction l with
  | nil =>
    simp only [List.countP_nil, List.length_nil]
    apply List.sum_eq_zero
    intro y hy
    obtain ⟨j, _, rfl⟩ := List.mem_map.1 hy
    rfl
  | cons x xs ih =>
    have hx : f x < n := h x (List.mem_cons_self x xs)
    have hxs : ∀ y ∈ xs, f y < n := fun y hy => h y (List.mem_cons_of_mem x hy)
    simp only [List.countP_cons]
    have hsplit : ((List.range n).map (fun i =>
        xs.countP (fun y => decide (f y = i)) +
          if decide (f x = i) = true then 1 else 0)).sum =
        ((List.range n).map (fun i => xs.countP (fun y => decide (f y = i)))).sum +
          ((List.range n).map (fun i =>
            if decide (f x = i) = true then 1 else 0)).sum :=
      sum_map_add_nat _ _ _
    rw [hsplit, ih hxs]
    have hind : ((List.range n).map (fun i =>
        if decide (f x = i) = true then 1 else 0)).sum = 1 := by
      have he : ((List.range n).map (fun i =>
          if decide (f x = i) = true then 1 else 0)) =
          ((List.range n).map (fun i => if f x = i then 1 else 0)) := by
        apply List.map_congr_left
        intro a _
        by_cases hfx : f x = a
        · simp [hfx]
        · simp [hfx]
      rw [he, sum_indicator_of_lt n (f x) hx]
    rw [hind]
    simp [List.length_cons]

lemma countP_and_filter (l : List β) (p q : β → Bool) :
    l.countP (fun a => p a && q a) = (l.filter p).countP q := by
  induction l with
  | nil => rfl
  | cons a as ih =>
    by_cases hp : p a = true
    · simp only [List.countP_cons, List.filter_cons, hp, Bool.true_and,
        List.countP_cons, ih]
      simp [List.countP_cons]
    · have hp2 : p a = false := by
        cases hpa : p a
        · rfl
        · exact absurd hpa hp
      simp only [List.countP_cons, List.filter_cons, hp2, Bool.false_and, ih]
      simp

lemma snd_mem_of_mem_zip : ∀ (l1 : List α) (l2 : List β) (p : α × β),
    p ∈ l1.zip l2 → p.2 ∈ l2 := by
  intro l1
  induction l1 with
  | nil => intro l2 p hp; simp [List.zip] at hp
  | cons x xs ih =>
    intro l2 p hp
    cases l2 with
    | nil => simp [List.zip] at hp
    | cons y ys =>
      rcases List.mem_cons.1 hp with rfl | hp2
      · exact List.mem_cons_self y ys
      · exact List.mem_cons_of_mem y (ih ys p hp2)

lemma leafHistograms_row_sum (t : DTree) (data : List Point)
    (labels : List Nat) (nc : Nat) (hvalid : ∀ lb ∈ labels, lb < nc) (i : Nat) :
    ((List.range nc).map (fun cl => (data.zip labels).countP (fun pl =>
      decide (classifyIdx t pl.1 = i) && decide (pl.2 = cl)))).sum =
      (data.zip labels).countP (fun pl => decide (classifyIdx t pl.1 = i)) := by
  have h1 : ∀ cl : Nat, (data.zip labels).countP (fun pl =>
      decide (classifyIdx t pl.1 = i) && decide (pl.2 = cl)) =
      ((data.zip labels).filter (fun pl =>
        decide (classifyIdx t pl.1 = i))).countP (fun pl => decide (pl.2 = cl)) :=
    fun cl => countP_and_filter _ _ _
  rw [List.map_congr_left (fun cl _ => h1 cl), List.countP_eq_length_filter]
  exact sum_countP_buckets _ (fun pl => pl.2) nc (fun pl hpl =>
    hvalid pl.2 (snd_mem_of_mem_zip data labels pl (List.mem_of_mem_filter hpl)))

/-- Claim C6: with labels all in `[0, numClasses)`, leaf membership
reporting succeeds and its per-leaf class histograms sum, over all leaves,
to exactly the number of input points; every leaf is emitted (one row per
leaf), a leaf with no assigned points yields an all-zero row, and any label
outside `[0, numClasses)` makes the report an error rather than being
silently truncated. -/
theorem leaf_membership_histograms (t : DTree) (data : List Point)
    (labels : List Nat) (nc : Nat)
    (hlen : labels.length = data.length)
    (hvalid : ∀ lb ∈ labels, lb < nc) :
    PrintLeafMembership t data labels nc = .ok (leafHistograms t data labels nc) ∧
    ((leafHistograms t data labels nc).map (fun row => row.sum)).sum =
      data.length ∧
    (leafHistograms t data labels nc).length = numLeaves t ∧
    (∀ i, i < numLeaves t →
      (data.zip labels).countP (fun pl => decide (classifyIdx t pl.1 = i)) = 0 →
      (leafHistograms t data labels nc).getD i [] = List.replicate nc 0) ∧
    (∀ labels2 : List Nat, (∃ lb ∈ labels2, nc ≤ lb) →
      PrintLeafMembership t data labels2 nc = .error .outOfRangeLabel) := by
  have hany : labels.any (fun lb => decide (nc ≤ lb)) = false := by
    rw [List.any_eq_false]
    intro lb hlb
    simpa using hvalid lb hlb
  refine ⟨?_, ?_, ?_, ?_, ?_⟩
  · unfold PrintLeafMembership
    rw [hany]
    rfl
  · unfold leafHistograms
    rw [List.map_map]
    have hcong : ∀ i ∈ List.range (numLeaves t),
        ((fun row : List Nat => row.sum) ∘ (fun i => (List.range nc).map
          (fun cl => (data.zip labels).countP (fun pl =>
            decide (classifyIdx t pl.1 = i) && decide (pl.2 = cl))))) i =
        (data.zip labels).countP (fun pl => decide (classifyIdx t pl.1 = i)) := by
      intro i _
      exact leafHistograms_row_sum t data labels nc hvalid i
    rw [List.map_congr_left hcong]
    have h3 := sum_countP_buckets (data.zip labels)
      (fun pl => classifyIdx t pl.1) (numLeaves t)
      (fun pl _ => classifyIdx_lt t pl.1)
    rw [List.length_zip, hlen, Nat.min_self] at h3
    exact h3
  · simp [leafHistograms]
  · intro i hi hzero
    have hgot : (leafHistograms t data labels nc).getD i [] =
        (List.range nc).map (fun cl => (data.zip labels).countP (fun pl =>
          decide (classifyIdx t pl.1 = i) && decide (pl.2 = cl))) := by
      unfold leafHistograms
      rw [List.getD_eq_getElem _ _ (by simpa using hi)]
      rw [List.getElem_map]
      rw [List.getElem_range]
    rw [hgot]
    have hfilter : ((data.zip labels).filter (fun pl =>
        decide (classifyIdx t pl.1 = i))) = [] := by
      rw [← List.length_eq_zero]
      rw [← List.countP_eq_length_filter]
      exact hzero
    have hcell : ∀ cl : Nat, (data.zip labels).countP (fun pl =>
        decide (classifyIdx t pl.1 = i) && decide (pl.2 = cl)) = 0 := by
      intro cl
      rw [countP_and_filter, hfilter]
      rfl
    rw [List.map_congr_left (fun cl _ => hcell cl)]
    rw [List.map_const']
    simp
  · intro labels2 hex
    obtain ⟨lb, hmem, hge⟩ := hex
    unfold PrintLeafMembership
    rw [if_pos]
    rw [List.any_eq_true]
    exact ⟨lb, hmem, by simpa using hge⟩

/-- Concrete instantiation of claim C6's theorem: two labelled points on the
tree built from them. -/
theorem leaf_membership_histograms_witness :
    PrintLeafMembership (BuildTop [[0], [2]] false 10 1) [[0], [2]] [0, 1] 2 =
      .ok (leafHistograms (BuildTop [[0], [2]] false 10 1) [[0], [2]] [0, 1] 2) ∧
    ((leafHistograms (BuildTop [[0], [2]] false 10 1) [[0], [2]] [0, 1] 2).map
      (fun row => row.sum)).sum = 2 :=
  ⟨(leaf_membership_histograms (BuildTop [[0], [2]] false 10 1) [[0], [2]]
      [0, 1] 2 (by decide) (by decide)).1,
   (leaf_membership_histograms (BuildTop [[0], [2]] false 10 1) [[0], [2]]
      [0, 1] 2 (by decide) (by decide)).2.1⟩

/-- The path formats of `PathCacher` (dt_utils.hpp lines 81–86). -/
inductive PathFormat where
  | FormatLR
  | FormatLR_ID
  | FormatID_LR
deriving Repr, DecidableEq

/-- Left/right symbols of a root-to-node direction list (`true` = left). -/
def lrChars (dirs : List Bool) : List Char :=
  dirs.map (fun b => if b then 'L' else 'R')

/-- Modelled from the spec: `PathCacher::BuildString` (body missing from the
snapshot): `FormatLR` emits only the left/right symbols of the path,
`FormatLR_ID` appends the node tag after the LR path, `FormatID_LR` puts the
tag before the LR path. -/
def BuildString (fmt : PathFormat) (dirs : List Bool) (tag : Int) : String :=
  match fmt with
  | .FormatLR => String.mk (lrChars dirs)
  | .FormatLR_ID => String.mk (lrChars dirs) ++ toString tag
  | .FormatID_LR => toString tag ++ String.mk (lrChars dirs)

/-- A path string is consistent with a format when it has the layout the
format prescribes: an LR-symbol string, with the tag appended
(`FormatLR_ID`) or prepended (`FormatID_LR`). -/
def consistentPath (fmt : PathFormat) (tag : Int) (s : String) : Prop :=
  match fmt with
  | .FormatLR => ∃ ds : List Bool, s = String.mk (lrChars ds)
  | .FormatLR_ID => ∃ ds : List Bool, s = String.mk (lrChars ds) ++ toString tag
  | .FormatID_LR => ∃ ds : List Bool, s = toString tag ++ String.mk (lrChars ds)

/-- Modelled from the spec: the entries cached by one complete depth-first
traversal of a tree (the `Enter`/`Leave` callbacks maintaining the path
stack): for every visited node, its tag, its parent's tag, and its path
string. -/
def enumeratePaths (fmt : PathFormat) (dirs : List Bool) (parentTag : Int) :
    DTree → List (Int × Int × String)
  | .leaf _ _ _ tag _ => [(tag, parentTag, BuildString fmt dirs tag)]
  | .node _ _ _ tag _ _ _ l r =>
      (tag, parentTag, BuildString fmt dirs tag) ::
        (enumeratePaths fmt (dirs ++ [true]) tag l ++
         enumeratePaths fmt (dirs ++ [false]) tag r)

/-- The `PathCacher` state: the configured format and the cache mapping each
visited tag to its parent tag and path string (dt_utils.hpp lines 105–111;
the root's parent tag is the sentinel -1). -/
structure PathCacher where
  format : PathFormat
  pathCache : List (Int × Int × String)

/-- Modelled from the spec: constructing a `PathCacher` runs one complete
depth-first traversal of the tree (`EnumerateTree`) and caches every node's
path. -/
def populateCache (fmt : PathFormat) (t : DTree) : PathCacher :=
  { format := fmt, pathCache := enumeratePaths fmt [] (-1) t }

/-- Error raised when the cache is queried for a tag that was never
visited. -/
inductive PathError where
  | unknownPathQuery
deriving Repr, DecidableEq

/-- Cache lookup by tag. -/
def lookupTag (cache : List (Int × Int × String)) (tag : Int) :
    Option (Int × String) :=
  (cache.find? (fun e => e.1 == tag)).map (fun e => e.2)

/-- `PathCacher::PathFor(tag)` (dt_utils.hpp line 99): the cached path
string of a visited tag; querying an unvisited tag raises
`UnknownPathQuery`. -/
def PathFor (pc : PathCacher) (tag : Int) : Except PathError String :=
  match lookupTag pc.pathCache tag with
  | some e => .ok e.2
  | none => .error .unknownPathQuery

/-- `PathCacher::ParentOf(tag)` (dt_utils.hpp line 101): the cached parent
tag of a visited tag; querying an unvisited tag raises
`UnknownPathQuery`. -/
def ParentOf (pc : PathCacher) (tag : Int) : Except PathError Int :=
  match lookupTag pc.pathCache tag with
  | some e => .ok e.1
  | none => .error .unknownPathQuery

lemma toDigitsCore_length_ge (b : Nat) :
    ∀ (fuel n : Nat) (ds : List Char),
      ds.length ≤ (Nat.toDigitsCore b fuel n ds).length := by
  intro fuel
  induction fuel with
  | zero => intro n ds; exact le_refl _
  | succ f ih =>
    intro n ds
    simp only [Nat.toDigitsCore]
    split
    · simp
    · exact le_trans (by simp) (ih (n / b) (Nat.digitChar (n % b) :: ds))

lemma toDigits_ne_nil (n : Nat) : Nat.toDigits 10 n ≠ [] := by
  unfold Nat.toDigits
  simp only [Nat.toDigitsCore]
  split
  · simp
  · intro hcon
    have := toDigitsCore_length_ge 10 n (n / 10) [Nat.digitChar (n % 10)]
    rw [hcon] at this
    simp at this

lemma natRepr_length_pos (n : Nat) : 0 < (Nat.repr n).length := by
  have h := toDigits_ne_nil n
  unfold Nat.repr
  cases hd : Nat.toDigits 10 n with
  | nil => exact absurd hd h
  | cons c cs =>
    simp [List.asString, String.length, hd]

lemma toString_int_length_pos (i : Int) : 0 < (toString i).length := by
  cases i with
  | ofNat m => exact natRepr_length_pos m
  | negSucc m =>
    have : toString (Int.negSucc m) = "-" ++ Nat.repr (m + 1) := rfl
    rw [this, String.length_append]
    have := natRepr_length_pos (m + 1)
    omega

lemma enumeratePaths_keys (t : DTree) : ∀ (fmt : PathFormat)
    (dirs : List Bool) (p : Int),
    (enumeratePaths fmt dirs p t).map (fun e => e.1) = allTags t := by
  induction t with
  | leaf m mx c tg e =>
    intro fmt dirs p
    rfl
  | node m mx c tg e d v l r ihl ihr =>
    intro fmt dirs p
    simp only [enumeratePaths, allTags, List.map_cons, List.map_append]
    rw [ihl, ihr]

lemma enumeratePaths_head (t : DTree) (fmt : PathFormat) (dirs : List Bool)
    (p : Int) : ∃ rest, enumeratePaths fmt dirs p t =
      (ttag t, p, BuildString fmt dirs (ttag t)) :: rest := by
  cases t with
  | leaf m mx c tg e => exact ⟨[], rfl⟩
  | node m mx c tg e d v l r => exact ⟨_, rfl⟩

lemma enumeratePaths_entry_shape (t : DTree) : ∀ (fmt : PathFormat)
    (dirs : List Bool) (p : Int), ∀ e ∈ enumeratePaths fmt dirs p t,
    ∃ ds : List Bool, e.2.2 = BuildString fmt ds e.1 ∧
      (ds = [] → dirs = [] ∧ e.1 = ttag t) := by
  induction t with
  | leaf m mx c tg er =>
    intro fmt dirs p e he
    simp only [enumeratePaths, List.mem_singleton] at he
    subst he
    exact ⟨dirs, rfl, fun hd => ⟨hd, rfl⟩⟩
  | node m mx c tg er d v l r ihl ihr =>
    intro fmt dirs p e he
    simp only [enumeratePaths, List.mem_cons, List.mem_append] at he
    rcases he with rfl | he | he
    · exact ⟨dirs, rfl, fun hd => ⟨hd, rfl⟩⟩
    · obtain ⟨ds, hds, himp⟩ := ihl fmt (dirs ++ [true]) tg e he
      refine ⟨ds, hds, fun hd => ?_⟩
      have := (himp hd).1
      simp at this
    · obtain ⟨ds, hds, himp⟩ := ihr fmt (dirs ++ [false]) tg e he
      refine ⟨ds, hds, fun hd => ?_⟩
      have := (himp hd).1
      simp at this

lemma buildString_consistent (fmt : PathFormat) (ds : List Bool) (tag : Int) :
    consistentPath fmt tag (BuildString fmt ds tag) := by
  cases fmt with
  | FormatLR => exact ⟨ds, rfl⟩
  | FormatLR_ID => exact ⟨ds, rfl⟩
  | FormatID_LR => exact ⟨ds, rfl⟩

lemma string_mk_append_length (l : List Char) (s : String) :
    (String.mk l ++ s).length = l.length + s.length := by
  rw [String.length_append]
  rfl

lemma buildString_empty (fmt : PathFormat) (ds : List Bool) (tag : Int)
    (h : BuildString fmt ds tag = "") : fmt = .FormatLR ∧ ds = [] := by
  cases fmt with
  | FormatLR =>
    refine ⟨rfl, ?_⟩
    simp only [BuildString] at h
    have : lrChars ds = [] := by
      have := congrArg String.data h
      simpa using this
    simpa [lrChars] using this
  | FormatLR_ID =>
    exfalso
    simp only [BuildString] at h
    have hlen := congrArg String.length h
    rw [string_mk_append_length] at hlen
    have := toString_int_length_pos tag
    simp at hlen
    omega
  | FormatID_LR =>
    exfalso
    simp only [BuildString] at h
    have hlen := congrArg String.length h
    rw [String.length_append] at hlen
    have := toString_int_length_pos tag
    simp at hlen
    omega

lemma lookupTag_of_nodup (cache : List (Int × Int × String)) :
    (cache.map (fun e => e.1)).Nodup → ∀ e ∈ cache,
    lookupTag cache e.1 = some e.2 := by
  induction cache with
  | nil => intro _ e he; simp at he
  | cons h rest ih =>
    intro hnd e he
    have hnd2 := (List.nodup_cons.1 hnd).2
    have hnotin := (List.nodup_cons.1 hnd).1
    rcases List.mem_cons.1 he with rfl | he2
    · have hpos : (e.1 == e.1) = true := by simp
      unfold lookupTag
      rw [List.find?_cons, hpos]
      rfl
    · have hne : (h.1 == e.1) = false := by
        rw [beq_eq_false_iff_ne]
        intro heq
        apply hnotin
        show h.1 ∈ _
        rw [heq]
        exact List.mem_map.2 ⟨e, he2, rfl⟩
      unfold lookupTag
      rw [List.find?_cons, hne]
      simp only [Bool.false_eq_true, if_false]
      exact ih hnd2 e he2

lemma lookupTag_none (cache : List (Int × Int × String)) (tag : Int)
    (h : tag ∉ cache.map (fun e => e.1)) : lookupTag cache tag = none := by
  unfold lookupTag
  rw [List.find?_eq_none.2]
  · rfl
  · intro x hx hbe
    have : x.1 = tag := by simpa using hbe
    exact h (this ▸ List.mem_map.2 ⟨x, hx, rfl⟩)

lemma enumeratePaths_child_entries (t : DTree) : ∀ (fmt : PathFormat)
    (dirs : List Bool) (p : Int) (s : DTree), s ∈ subtreesList t →
    isLeaf s = false →
    (∃ str, (ttag (leftOf s), ttag s, str) ∈ enumeratePaths fmt dirs p t) ∧
    (∃ str, (ttag (rightOf s), ttag s, str) ∈ enumeratePaths fmt dirs p t) := by
  induction t with
  | leaf m mx c tg e =>
    intro fmt dirs p s hs hint
    simp only [subtreesList, List.mem_singleton] at hs
    subst hs
    simp [isLeaf] at hint
  | node m mx c tg e d v l r ihl ihr =>
    intro fmt dirs p s hs hint
    simp only [subtreesList, List.mem_cons, List.mem_append] at hs
    rcases hs with rfl | hs | hs
    · constructor
      · obtain ⟨rest, hrest⟩ := enumeratePaths_head l fmt (dirs ++ [true]) tg
        refine ⟨BuildString fmt (dirs ++ [true]) (ttag l), ?_⟩
        simp only [enumeratePaths, leftOf, ttag]
        apply List.mem_cons_of_mem
        apply List.mem_append_left
        rw [hrest]
        exact List.mem_cons_self _ _
      · obtain ⟨rest, hrest⟩ := enumeratePaths_head r fmt (dirs ++ [false]) tg
        refine ⟨BuildString fmt (dirs ++ [false]) (ttag r), ?_⟩
        simp only [enumeratePaths, rightOf, ttag]
        apply List.mem_cons_of_mem
        apply List.mem_append_right
        rw [hrest]
        exact List.mem_cons_self _ _
    · obtain ⟨⟨s1, hm1⟩, ⟨s2, hm2⟩⟩ := ihl fmt (dirs ++ [true]) tg s hs hint
      exact ⟨⟨s1, by
        simp only [enumeratePaths]
        exact List.mem_cons_of_mem _ (List.mem_append_left _ hm1)⟩,
        ⟨s2, by
        simp only [enumeratePaths]
        exact List.mem_cons_of_mem _ (List.mem_append_left _ hm2)⟩⟩
    · obtain ⟨⟨s1, hm1⟩, ⟨s2, hm2⟩⟩ := ihr fmt (dirs ++ [false]) tg s hs hint
      exact ⟨⟨s1, by
        simp only [enumeratePaths]
        exact List.mem_cons_of_mem _ (List.mem_append_right _ hm1)⟩,
        ⟨s2, by
        simp only [enumeratePaths]
        exact List.mem_cons_of_mem _ (List.mem_append_right _ hm2)⟩⟩

/-- Claim C5 as stated is false: under `FormatLR` the root's path has no
left/right steps, so `PathFor` on the root's tag — a tag visited by the
complete traversal — returns the empty string, not a non-empty one.
Concretely, for the single-leaf tree with tag 0 the traversal visits tag 0
and `PathFor(0)` returns `ok ""`. -/
theorem pathfor_visited_tag_empty_counterexample :
    (0 : Int) ∈ allTags (DTree.leaf [0] [1] 1 0 0) ∧
    PathFor (populateCache PathFormat.FormatLR (DTree.leaf [0] [1] 1 0 0)) 0 =
      .ok "" := by
  constructor
  · decide
  · rfl

/-- Claim C5 (amended): after a `PathCacher` is populated by one complete
depth-first traversal of a tree whose node tags are distinct, `PathFor`
returns, for every visited tag, a path string consistent with the
configured `PathFormat` — non-empty except that under `FormatLR` the root's
path is the empty string — and `ParentOf` returns that node's parent tag
(the sentinel -1 for the root); calling `PathFor` or `ParentOf` with a tag
that was never visited raises `UnknownPathQuery` rather than returning
stale or empty data. -/
theorem path_cacher_query_correct (fmt : PathFormat) (t : DTree)
    (hnd : (allTags t).Nodup) :
    (∀ tag, tag ∈ allTags t →
      ∃ s, PathFor (populateCache fmt t) tag = .ok s ∧
        consistentPath fmt tag s ∧
        (s = "" → fmt = .FormatLR ∧ tag = ttag t)) ∧
    (∀ s, s ∈ subtreesList t → isLeaf s = false →
      ParentOf (populateCache fmt t) (ttag (leftOf s)) = .ok (ttag s) ∧
      ParentOf (populateCache fmt t) (ttag (rightOf s)) = .ok (ttag s)) ∧
    ParentOf (populateCache fmt t) (ttag t) = .ok (-1) ∧
    (∀ tag, tag ∉ allTags t →
      PathFor (populateCache fmt t) tag = .error .unknownPathQuery ∧
      ParentOf (populateCache fmt t) tag = .error .unknownPathQuery) := by
  have hkeys : (enumeratePaths fmt [] (-1) t).map (fun e => e.1) = allTags t :=
    enumeratePaths_keys t fmt [] (-1)
  have hndk : ((enumeratePaths fmt [] (-1) t).map (fun e => e.1)).Nodup := by
    rw [hkeys]; exact hnd
  refine ⟨?_, ?_, ?_, ?_⟩
  · intro tag htag
    have hmem : tag ∈ (enumeratePaths fmt [] (-1) t).map (fun e => e.1) := by
      rw [hkeys]; exact htag
    obtain ⟨e, he, hetag⟩ := List.mem_map.1 hmem
    subst hetag
    have hlk := lookupTag_of_nodup _ hndk e he
    refine ⟨e.2.2, ?_, ?_, ?_⟩
    · unfold PathFor populateCache
      rw [hlk]
    · obtain ⟨ds, hds, _⟩ := enumeratePaths_entry_shape t fmt [] (-1) e he
      rw [hds]
      exact buildString_consistent fmt ds e.1
    · intro hemp
      obtain ⟨ds, hds, himp⟩ := enumeratePaths_entry_shape t fmt [] (-1) e he
      rw [hds] at hemp
      obtain ⟨hfmt, hds0⟩ := buildString_empty fmt ds e.1 hemp
      exact ⟨hfmt, (himp hds0).2⟩
  · intro s hs hint
    obtain ⟨⟨s1, hm1⟩, ⟨s2, hm2⟩⟩ :=
      enumeratePaths_child_entries t fmt [] (-1) s hs hint
    constructor
    · have hlk := lookupTag_of_nodup _ hndk _ hm1
      unfold ParentOf populateCache
      rw [hlk]
    · have hlk := lookupTag_of_nodup _ hndk _ hm2
      unfold ParentOf populateCache
      rw [hlk]
  · obtain ⟨rest, hrest⟩ := enumeratePaths_head t fmt [] (-1)
    have hm : (ttag t, -1, BuildString fmt [] (ttag t)) ∈
        enumeratePaths fmt [] (-1) t := by
      rw [hrest]; exact List.mem_cons_self _ _
    have hlk := lookupTag_of_nodup _ hndk _ hm
    unfold ParentOf populateCache
    rw [hlk]
  · intro tag htag
    have hnone : lookupTag (enumeratePaths fmt [] (-1) t) tag = none :=
      lookupTag_none _ _ (by rw [hkeys]; exact htag)
    constructor
    · unfold PathFor populateCache
      rw [hnone]
    · unfold ParentOf populateCache
      rw [hnone]

/-- A concrete tagged tree for instantiating the path-cache theorem: root
tag 1, leaves tagged 2 and 3. -/
def pathWitnessTree : DTree :=
  DTree.node [0] [2] 2 1 0 0 1 (DTree.leaf [0] [1] 1 2 0)
    (DTree.leaf [1] [2] 1 3 0)

/-- Concrete instantiation of the amended claim C5 theorem on
`pathWitnessTree` with `FormatLR_ID`. -/
theorem path_cacher_query_correct_witness :
    (∀ tag, tag ∈ allTags pathWitnessTree →
      ∃ s, PathFor (populateCache PathFormat.FormatLR_ID pathWitnessTree) tag =
          .ok s ∧
        consistentPath PathFormat.FormatLR_ID tag s ∧
        (s = "" → PathFormat.FormatLR_ID = PathFormat.FormatLR ∧
          tag = ttag pathWitnessTree)) ∧
    (∀ s, s ∈ subtreesList pathWitnessTree → isLeaf s = false →
      ParentOf (populateCache PathFormat.FormatLR_ID pathWitnessTree)
        (ttag (leftOf s)) = .ok (ttag s) ∧
      ParentOf (populateCache PathFormat.FormatLR_ID pathWitnessTree)
        (ttag (rightOf s)) = .ok (ttag s)) ∧
    ParentOf (populateCache PathFormat.FormatLR_ID pathWitnessTree)
      (ttag pathWitnessTree) = .ok (-1) ∧
    (∀ tag, tag ∉ allTags pathWitnessTree →
      PathFor (populateCache PathFormat.FormatLR_ID pathWitnessTree) tag =
        .error .unknownPathQuery ∧
      ParentOf (populateCache PathFormat.FormatLR_ID pathWitnessTree) tag =
        .error .unknownPathQuery) :=
  path_cacher_query_correct PathFormat.FormatLR_ID pathWitnessTree (by decide)
